import Mathlib

/-!
# Verification of the `synch` replicated data structures

Shallow embedding of the `sync` module of the repository: the sequence CRDT
wrapper `SyncedList` (src/sync/list.rs), the map CRDT wrapper `SyncedMap`
(src/sync/map.rs) and the `Taped` capability (src/sync/taped.rs).

The wrappers delegate the CRDT merge algorithm to the external `crdts` crate
(`crdts::list::List`, `crdts::map::Map`, `crdts::MVReg`), whose code is not
part of this repository.  Those parts are modelled from the specification:
element identities are globally unique, totally ordered tokens derived from
`(inserting actor, logical counter, predecessor identity)` with a
deterministic actor tie-break; the list state keeps a tombstone set; the map
is a per-key multi-value register keyed by causal contexts.  The model uses
dense path identifiers (a list of `(position, actor, counter)` entries,
ordered lexicographically), which realises exactly the ordering contract the
specification states in §3 and §4.1.
-/

namespace Synch

/-- One entry of a path identifier: `(position, actor, counter)`.
Modelled from the spec: identities are derived from the inserting actor,
a logical counter, and the predecessor identity; ties at the same position
break deterministically by actor identifier. -/
abbrev Entry : Type := Int × Nat × Nat

/-- The position component of an entry. -/
def Entry.pos (e : Entry) : Int := e.1

/-- The actor component of an entry. -/
def Entry.actor (e : Entry) : Nat := e.2.1

/-- The logical-counter component of an entry. -/
def Entry.ctr (e : Entry) : Nat := e.2.2

/-- Strict lexicographic order on entries: position, then actor, then
counter.  The actor comparison is the deterministic tie-break of §4.1. -/
def EntryLt (a b : Entry) : Prop :=
  a.pos < b.pos ∨ (a.pos = b.pos ∧
    (a.actor < b.actor ∨ (a.actor = b.actor ∧ a.ctr < b.ctr)))

instance (a b : Entry) : Decidable (EntryLt a b) := by
  unfold EntryLt; infer_instance

/-- An element identity: a dense path of entries, compared lexicographically.
Modelled from the spec (§3): globally unique, totally ordered, stable. -/
abbrev Id : Type := List Entry

/-- Strict lexicographic order on identities.  A proper prefix sorts before
its extensions, which is what makes the identifier space dense. -/
def IdLt : Id → Id → Prop
  | [], [] => False
  | [], _ :: _ => True
  | _ :: _, [] => False
  | a :: as, b :: bs => EntryLt a b ∨ (a = b ∧ IdLt as bs)

instance instDecidableIdLt : (x y : Id) → Decidable (IdLt x y)
  | [], [] => isFalse (fun h => h)
  | [], _ :: _ => isTrue trivial
  | _ :: _, [] => isFalse (fun h => h)
  | a :: as, b :: bs =>
    have : Decidable (IdLt as bs) := instDecidableIdLt as bs
    by unfold IdLt; infer_instance

/-- A sequence element: its immutable identity and its value. -/
structure LNode (T : Type) where
  id : Id
  value : T
  deriving DecidableEq

/-- A sequence operation (`crdts::list::Op`): `Insert(identity, value)` or
`Delete(identity)`.  The position reference of the spec is carried by the
dense identity itself, which was allocated between its two neighbours. -/
inductive LOp (T : Type) where
  | insert (n : LNode T)
  | delete (id : Id)
  deriving DecidableEq

/-- Sequence CRDT state: live/tombstoned elements.  `nodes` is kept sorted
by identity (the visible order); `tombs` is the tombstone set of §3 — delete
marks an identity, never removes it. -/
structure LState (T : Type) where
  nodes : List (LNode T)
  tombs : List Id
  deriving DecidableEq

/-- Order-insert of a node into the identity-sorted node list.  An element
whose identity is already present is kept as-is (set semantics, so applying
an already-applied insert is a no-op). -/
def insNode {T : Type} (x : LNode T) : List (LNode T) → List (LNode T)
  | [] => [x]
  | m :: ms =>
    if IdLt x.id m.id then x :: m :: ms
    else if x.id = m.id then m :: ms
    else m :: insNode x ms

/-- Order-insert of an identity into the tombstone set (set semantics). -/
def insTomb (d : Id) : List Id → List Id
  | [] => [d]
  | t :: ts =>
    if IdLt d t then d :: t :: ts
    else if d = t then t :: ts
    else t :: insTomb d ts

/-- Merge one (possibly remote) operation into local sequence state
(`crdts::CmRDT::apply`, modelled from the spec §4.1): insert re-derives the
position from the operation's identity; delete is a set-insert into the
tombstone set. -/
def applyOp {T : Type} (s : LState T) : LOp T → LState T
  | .insert n => { s with nodes := insNode n s.nodes }
  | .delete d => { s with tombs := insTomb d s.tombs }

/-- The live (not tombstoned) elements, in visible order. -/
def liveNodes {T : Type} (s : LState T) : List (LNode T) :=
  s.nodes.filter (fun n => decide (n.id ∉ s.tombs))

/-- The visible sequence of values (`List::read`), skipping tombstones. -/
def toSeq {T : Type} (s : LState T) : List T :=
  (liveNodes s).map (fun n => n.value)

/-- Visible length (`List::len`). -/
def llen {T : Type} (s : LState T) : Nat :=
  (liveNodes s).length

/-- The value at a visible index (`List::position`), if in range. -/
def position {T : Type} (s : LState T) (idx : Nat) : Option T :=
  (toSeq s).get? idx

/-- The logical counters mentioned anywhere inside an identity. -/
def idCtrs (i : Id) : List Nat := i.map (fun e => e.ctr)

/-- All counters mentioned in a state (live, tombstoned, or tombstone ids). -/
def ctrsOf {T : Type} (s : LState T) : List Nat :=
  (s.nodes.map (fun n => n.id) ++ s.tombs).flatMap idCtrs

/-- A logical counter strictly larger than every counter in the state; used
to make freshly allocated identities globally unique. -/
def freshCtr {T : Type} (s : LState T) : Nat :=
  (ctrsOf s).foldr max 0 + 1

/-- Head position of an identity (0 for the malformed empty path). -/
def headPos : Id → Int
  | [] => 0
  | e :: _ => e.pos

/-- Allocate an identity strictly between two existing identities
(`l < result < r`); used when both neighbours of the insertion point exist.
Modelled from the spec: the new identity is derived from the predecessor
identity, the inserting actor and a fresh logical counter. -/
def allocMid (l r : Id) (a c : Nat) : Id :=
  if l <+: r then
    match r.get? l.length with
    | some e => l ++ [(e.pos - 1, a, c)]
    | none => l ++ [((0 : Int), a, c)]
  else l ++ [((0 : Int), a, c)]

/-- Allocate an identity between optional left/right neighbours. -/
def allocBetween (l r : Option Id) (a c : Nat) : Id :=
  match l, r with
  | none, none => [((0 : Int), a, c)]
  | none, some rr => [(headPos rr - 1, a, c)]
  | some ll, none => [(headPos ll + 1, a, c)]
  | some ll, some rr => allocMid ll rr a c

/-- Allocate the identity for an insertion at visible index `idx`: strictly
between the live elements at visible indices `idx - 1` and `idx`. -/
def allocAt {T : Type} (s : LState T) (idx : Nat) (a : Nat) : Id :=
  let live := liveNodes s
  allocBetween
    (if idx = 0 then none else (live.get? (idx - 1)).map (fun n => n.id))
    ((live.get? idx).map (fun n => n.id))
    a (freshCtr s)

/-- `List::insert_index` (modelled from the spec §4.1): fails with an
OutOfRange condition — never clamps — when `idx` exceeds the visible length,
otherwise produces the insert operation anchored at visible index `idx`. -/
def insertIdxOp {T : Type} (s : LState T) (idx : Nat) (v : T) (a : Nat) :
    Option (LOp T) :=
  if idx ≤ llen s then some (.insert ⟨allocAt s idx a, v⟩) else none

/-- `List::append`: insert at the end (always succeeds). -/
def appendOp {T : Type} (s : LState T) (v : T) (a : Nat) : LOp T :=
  .insert ⟨allocAt s (llen s) a, v⟩

/-- `List::delete_index`: the delete operation for the identity at visible
index `idx`, or `none` (OutOfRange) when there is no such live element. -/
def deleteIdxOp {T : Type} (s : LState T) (idx : Nat) : Option (LOp T) :=
  ((liveNodes s).get? idx).map (fun n => .delete n.id)

/-- Well-formed sequence state, as maintained by the CRDT: the node list is
strictly sorted by identity (hence identities are unique) and no identity is
the empty path. -/
def WF {T : Type} (s : LState T) : Prop :=
  s.nodes.Pairwise (fun a b => IdLt a.id b.id) ∧ ∀ n ∈ s.nodes, n.id ≠ []

instance {T : Type} (s : LState T) : Decidable (WF s) := by
  unfold WF
  infer_instance

/-- The `SyncedList` replica of src/sync/list.rs: CRDT state, actor id, and
the pending operation tape. -/
structure SyncedList (T : Type) where
  list : LState T
  actor : Nat
  tape : List (LOp T)
  deriving DecidableEq

namespace SyncedList

/-- `SyncedList::new`. -/
def new (T : Type) : SyncedList T := ⟨⟨[], []⟩, 0, []⟩

/-- `SyncedList::len`. -/
def len {T : Type} (s : SyncedList T) : Nat := llen s.list

/-- `SyncedList::index` (src/sync/list.rs:131-139): clone of the element at
a visible index; the out-of-bounds panic branch is modelled as `none`.  The
accessor takes `&self` and returns only a value, so it can mutate neither
the list nor the tape. -/
def index {T : Type} (s : SyncedList T) (idx : Nat) : Option T :=
  if s.len > idx then position s.list idx else none

/-- `SyncedList::apply` (private; src/sync/list.rs:182-185): apply a locally
generated operation and record it on the tape in the same logical step. -/
def commitOp {T : Type} (s : SyncedList T) (op : LOp T) : SyncedList T :=
  { s with list := applyOp s.list op, tape := s.tape ++ [op] }

/-- Apply-and-record a batch of locally generated operations in order. -/
def commitOps {T : Type} (s : SyncedList T) (ops : List (LOp T)) :
    SyncedList T :=
  ops.foldl commitOp s

/-- `SyncedList::push`. -/
def push {T : Type} (s : SyncedList T) (v : T) : SyncedList T :=
  commitOp s (appendOp s.list v s.actor)

/-- `SyncedList::insert` (src/sync/list.rs:177-180); the OutOfRange failure
of the underlying `insert_index` is surfaced as `none`. -/
def insert {T : Type} (s : SyncedList T) (idx : Nat) (v : T) :
    Option (SyncedList T) :=
  (insertIdxOp s.list idx v s.actor).map (commitOp s)

/-- `SyncedList::remove` (src/sync/list.rs:170-175); the OutOfRange panic of
the `expect` is modelled as `none`. -/
def remove {T : Type} (s : SyncedList T) (idx : Nat) :
    Option (SyncedList T) :=
  (deleteIdxOp s.list idx).map (commitOp s)

/-- `Taped::tape` for `SyncedList` (src/sync/list.rs:202-206): drain the
tape, returning it and leaving the replica's tape empty. -/
def extract {T : Type} (s : SyncedList T) :
    List (LOp T) × SyncedList T :=
  (s.tape, { s with tape := [] })

/-- `Taped::replay` for `SyncedList` (src/sync/list.rs:193-195): apply a
batch of remote operations in order; the tape is not touched. -/
def replay {T : Type} (s : SyncedList T) (ops : List (LOp T)) :
    SyncedList T :=
  { s with list := ops.foldl applyOp s.list }

/-- `impl Clone for SyncedList` (src/sync/list.rs:209-213): same CRDT state,
actor incremented by one, empty tape. -/
def clone {T : Type} (s : SyncedList T) : SyncedList T :=
  ⟨s.list, s.actor + 1, []⟩

end SyncedList

/-- What `impl Serialize for SyncedList` (src/sync/list.rs:47-57) writes: a
two-field struct holding only the CRDT state and `actor + 1`; the pending
tape is excluded (`#[serde(skip)]`). -/
structure SyncedListSnapshot (T : Type) where
  list : LState T
  actor : Nat
  deriving DecidableEq

/-- The replica snapshot produced by serialization. -/
def serialize {T : Type} (s : SyncedList T) : SyncedListSnapshot T :=
  ⟨s.list, s.actor + 1⟩

/-- Deserialization (`#[derive(Deserialize)]` with `#[serde(skip)]` on the
tape): the tape of a freshly deserialized replica is the default, empty. -/
def deserialize {T : Type} (p : SyncedListSnapshot T) : SyncedList T :=
  ⟨p.list, p.actor, []⟩

/-- The scoped-mutation guard of src/sync/list.rs (`SyncedListGuard`): the
value read at lock time, the locked index, and the dirty flag. -/
structure SyncedListGuard (T : Type) where
  value : T
  idx : Nat
  was_mutated : Bool
  deriving DecidableEq

/-- `SyncedList::lock` (src/sync/list.rs:152-162): read-only acquisition of
a guard over the element at a visible index; `none` when out of range.  The
replica itself is untouched and no operation is generated. -/
def lock {T : Type} (s : SyncedList T) (idx : Nat) :
    Option (SyncedListGuard T) :=
  if s.len > idx then
    (position s.list idx).map (fun v => ⟨v, idx, false⟩)
  else none

/-- `DerefMut` on the guard (src/sync/list.rs:94-99): handing out a mutable
reference marks the guard as mutated, whether or not the value changes. -/
def derefMut {T : Type} (g : SyncedListGuard T) : SyncedListGuard T :=
  { g with was_mutated := true }

/-- Writing value `v` through the guard: a `deref_mut` followed by an
assignment to the target. -/
def gwrite {T : Type} (g : SyncedListGuard T) (v : T) : SyncedListGuard T :=
  { derefMut g with value := v }

/-- `Drop` for the guard (src/sync/list.rs:101-119): if the guard was
mutated, commit a delete of the old identity at the locked index followed by
an insert of the guard's value at the same index, both applied to the list
and recorded on the tape; otherwise do nothing.  The source panics if the
index became stale (§7 StaleGuardCommit); that unreachable-by-contract
branch is modelled as leaving the state unchanged. -/
def dropGuard {T : Type} (s : SyncedList T) (g : SyncedListGuard T) :
    SyncedList T :=
  if g.was_mutated then
    match deleteIdxOp s.list g.idx with
    | none => s
    | some dop =>
      let s₁ := s.commitOp dop
      match insertIdxOp s₁.list g.idx g.value s.actor with
      | some iop => s₁.commitOp iop
      | none => s₁
  else s

/-- One local mutation of a `SyncedList` replica, for the tape-completeness
statement: push, index insert, index remove, or a guard write. -/
inductive Mut (T : Type) where
  | push (v : T)
  | ins (idx : Nat) (v : T)
  | rem (idx : Nat)
  | gwr (idx : Nat) (v : T)

/-- The operations one local mutation generates from a given replica state
(`none` when the mutation fails with OutOfRange). -/
def genOps {T : Type} (s : SyncedList T) : Mut T → Option (List (LOp T))
  | .push v => some [appendOp s.list v s.actor]
  | .ins idx v => (insertIdxOp s.list idx v s.actor).map (fun op => [op])
  | .rem idx => (deleteIdxOp s.list idx).map (fun op => [op])
  | .gwr idx v =>
    match deleteIdxOp s.list idx with
    | none => none
    | some dop =>
      (insertIdxOp (applyOp s.list dop) idx v s.actor).map
        (fun iop => [dop, iop])

/-- Perform one local mutation: apply and tape-record its operations. -/
def stepMut {T : Type} (s : SyncedList T) (m : Mut T) :
    Option (SyncedList T) :=
  (genOps s m).map s.commitOps

/-- Perform a sequence of local mutations. -/
def runMuts {T : Type} (s : SyncedList T) : List (Mut T) →
    Option (SyncedList T)
  | [] => some s
  | m :: ms => (stepMut s m).bind (fun s' => runMuts s' ms)

/-- The operations generated by a mutation sequence, in generation order. -/
def opsOf {T : Type} (s : SyncedList T) : List (Mut T) → List (LOp T)
  | [] => []
  | m :: ms =>
    match genOps s m with
    | some g => g ++ opsOf (s.commitOps g) ms
    | none => []

/-- When are two sequence operations concurrent (neither causally depends on
the other)?  The consequence the model needs is §3's global uniqueness of
identities: two concurrently generated inserts come from different replicas
and therefore never carry the same identity (deletes always commute). -/
def Concurrent {T : Type} : LOp T → LOp T → Prop
  | .insert n1, .insert n2 => n1.id ≠ n2.id
  | _, _ => True

instance {T : Type} [DecidableEq T] (op1 op2 : LOp T) :
    Decidable (Concurrent op1 op2) := by
  unfold Concurrent
  match op1, op2 with
  | .insert n1, .insert n2 => infer_instance
  | .insert _, .delete _ => exact isTrue trivial
  | .delete _, .insert _ => exact isTrue trivial
  | .delete _, .delete _ => exact isTrue trivial

/-- A causal context (`crdts::VClock`, modelled from the spec §3): per-actor
counters recording which prior writes a write is aware of. -/
abbrev VClock : Type := List (Nat × Nat)

/-- The counter a causal context records for an actor. -/
def vcGet (c : VClock) (a : Nat) : Nat :=
  c.foldr (fun p acc => if p.1 = a then max p.2 acc else acc) 0

/-- Causal domination: `c` is dominated by (≤) `d` when every counter of
`c` is accounted for in `d`. -/
def VCLe (c d : VClock) : Prop :=
  ∀ p ∈ c, p.2 ≤ vcGet d p.1

instance (c d : VClock) : Decidable (VCLe c d) := by
  unfold VCLe; infer_instance

/-- A multi-value register (`crdts::MVReg`, modelled from the spec §3): the
surviving `(value, causal-context)` entries, in register order. -/
abbrev MVReg (V : Type) : Type := List (V × VClock)

/-- Merge a write into a register (modelled from the spec §4.2): retain all
entries not causally dominated by the incoming write, discard the dominated
ones, and append the write. -/
def applyReg {V : Type} (v : V) (ctx : VClock) (reg : MVReg V) : MVReg V :=
  reg.filter (fun e => decide (¬ VCLe e.2 ctx)) ++ [(v, ctx)]

/-- A map operation (`crdts::map::Op`, modelled from the spec §3):
`Update(key, causal-context, write(value))`. -/
structure MOp (K V : Type) where
  key : K
  ctx : VClock
  value : V
  deriving DecidableEq

/-- Map CRDT state: key to multi-value register (grow-only; no delete path
exists for keys). -/
abbrev MapState (K V : Type) : Type := List (K × MVReg V)

/-- Merge one map operation into local map state (`crdts::CmRDT::apply`,
modelled from the spec §4.2). -/
def applyM {K V : Type} [DecidableEq K] (s : MapState K V) (op : MOp K V) :
    MapState K V :=
  if s.any (fun kv => decide (kv.1 = op.key)) then
    s.map (fun kv =>
      if kv.1 = op.key then (kv.1, applyReg op.value op.ctx kv.2) else kv)
  else s ++ [(op.key, applyReg op.value op.ctx [])]

/-- Read one surviving value from a register: the first in register order. -/
def regRead {V : Type} (reg : MVReg V) : Option V :=
  reg.head?.map (fun e => e.1)

/-- `SyncedMap::get` (src/sync/map.rs:113-118): absent if the key was never
written, otherwise the first surviving value in register order. -/
def getM {K V : Type} [DecidableEq K] (s : MapState K V) (k : K) : Option V :=
  (s.find? (fun kv => decide (kv.1 = k))).bind (fun kv => regRead kv.2)

/-- Apply a batch of map operations in order. -/
def replayM {K V : Type} [DecidableEq K] (s : MapState K V)
    (ops : List (MOp K V)) : MapState K V :=
  ops.foldl applyM s

/-- The `SyncedMap` replica of src/sync/map.rs: CRDT state, actor id, and
the pending operation tape. -/
structure SyncedMap (K V : Type) where
  map : MapState K V
  actor : Nat
  tape : List (MOp K V)

namespace SyncedMap

/-- `SyncedMap::new`. -/
def new (K V : Type) : SyncedMap K V := ⟨[], 0, []⟩

/-- `SyncedMap::get`. -/
def get {K V : Type} [DecidableEq K] (s : SyncedMap K V) (k : K) :
    Option V :=
  getM s.map k

/-- `Taped::tape` for `SyncedMap` (src/sync/map.rs:97-101). -/
def extract {K V : Type} (s : SyncedMap K V) :
    List (MOp K V) × SyncedMap K V :=
  (s.tape, { s with tape := [] })

/-- `Taped::replay` for `SyncedMap` (src/sync/map.rs:88-90). -/
def replay {K V : Type} [DecidableEq K] (s : SyncedMap K V)
    (ops : List (MOp K V)) : SyncedMap K V :=
  { s with map := replayM s.map ops }

/-- `impl Clone for SyncedMap` (src/sync/map.rs:121-129): same CRDT state,
actor incremented by one, empty tape. -/
def clone {K V : Type} (s : SyncedMap K V) : SyncedMap K V :=
  ⟨s.map, s.actor + 1, []⟩

end SyncedMap

/-- A tiny concrete replica (visible sequence `[10, 20, 30]`) used to
evaluate the model on closed inputs. -/
def sampleList : SyncedList Nat :=
  ⟨⟨[⟨[((0 : Int), 0, 1)], 10⟩, ⟨[((1 : Int), 0, 2)], 20⟩,
     ⟨[((2 : Int), 0, 3)], 30⟩], []⟩, 0, []⟩

/-- The mutation sequence of the §8 scenario: three appends, a delete at 1,
an insert at 1. -/
def sampleMuts : List (Mut Nat) :=
  [.push 10, .push 20, .push 30, .rem 1, .ins 1 99]

/-- The replica obtained by running `sampleMuts` on a fresh replica. -/
def sampleRun : SyncedList Nat :=
  (runMuts (SyncedList.new Nat) sampleMuts).getD (SyncedList.new Nat)

/-! ## The identity order is a strict linear order -/

theorem EntryLt_irrefl (a : Entry) : ¬ EntryLt a a := by
  unfold EntryLt; omega

theorem EntryLt_trans {a b c : Entry} (h1 : EntryLt a b) (h2 : EntryLt b c) :
    EntryLt a c := by
  unfold EntryLt at *; omega

theorem EntryLt_asymm {a b : Entry} (h : EntryLt a b) : ¬ EntryLt b a := by
  unfold EntryLt at *; omega

theorem EntryLt_total (a b : Entry) : EntryLt a b ∨ a = b ∨ EntryLt b a := by
  have hab : a = b ↔ (a.pos = b.pos ∧ a.actor = b.actor ∧ a.ctr = b.ctr) := by
    constructor
    · intro h; subst h; exact ⟨rfl, rfl, rfl⟩
    · rintro ⟨h1, h2, h3⟩
      obtain ⟨x, y, z⟩ := a
      obtain ⟨x', y', z'⟩ := b
      simp only [Entry.pos, Entry.actor, Entry.ctr] at h1 h2 h3
      simp_all
  rw [hab]; unfold EntryLt; omega

theorem IdLt_irrefl : (x : Id) → ¬ IdLt x x
  | [] => fun h => h
  | a :: as => by
    intro h
    rcases h with h | ⟨_, h⟩
    · exact EntryLt_irrefl a h
    · exact IdLt_irrefl as h

theorem IdLt_trans : {x y z : Id} → IdLt x y → IdLt y z → IdLt x z
  | [], [], _, h1, _ => absurd h1 (fun h => h)
  | [], _ :: _, [], _, h2 => absurd h2 (fun h => h)
  | [], _ :: _, _ :: _, _, _ => trivial
  | _ :: _, [], _, h1, _ => absurd h1 (fun h => h)
  | _ :: _, _ :: _, [], _, h2 => absurd h2 (fun h => h)
  | a :: as, b :: bs, c :: cs, h1, h2 => by
    rcases h1 with h1 | ⟨rfl, h1⟩
    · rcases h2 with h2 | ⟨rfl, h2⟩
      · exact Or.inl (EntryLt_trans h1 h2)
      · exact Or.inl h1
    · rcases h2 with h2 | ⟨rfl, h2⟩
      · exact Or.inl h2
      · exact Or.inr ⟨rfl, IdLt_trans h1 h2⟩

theorem IdLt_asymm {x y : Id} (h : IdLt x y) : ¬ IdLt y x := by
  intro h'
  exact IdLt_irrefl x (IdLt_trans h h')

theorem IdLt_ne {x y : Id} (h : IdLt x y) : x ≠ y := by
  rintro rfl
  exact IdLt_irrefl x h

theorem IdLt_total : (x y : Id) → IdLt x y ∨ x = y ∨ IdLt y x
  | [], [] => Or.inr (Or.inl rfl)
  | [], _ :: _ => Or.inl trivial
  | _ :: _, [] => Or.inr (Or.inr trivial)
  | a :: as, b :: bs => by
    rcases EntryLt_total a b with h | rfl | h
    · exact Or.inl (Or.inl h)
    · rcases IdLt_total as bs with h | rfl | h
      · exact Or.inl (Or.inr ⟨rfl, h⟩)
      · exact Or.inr (Or.inl rfl)
      · exact Or.inr (Or.inr (Or.inr ⟨rfl, h⟩))
    · exact Or.inr (Or.inr (Or.inl h))

theorem IdLt_of_not {x y : Id} (h1 : ¬ IdLt x y) (h2 : x ≠ y) : IdLt y x := by
  rcases IdLt_total x y with h | h | h
  · exact absurd h h1
  · exact absurd h h2
  · exact h

/-! ## Idempotence and commutativity of the ordered set insertions -/

theorem insNode_idem {T : Type} (x : LNode T) :
    ∀ l, insNode x (insNode x l) = insNode x l
  | [] => by simp [insNode, IdLt_irrefl]
  | m :: ms => by
    by_cases h1 : IdLt x.id m.id
    · simp [insNode, h1, IdLt_irrefl]
    · by_cases h2 : x.id = m.id
      · simp [insNode, h1, h2, IdLt_irrefl]
      · simp [insNode, h1, h2, insNode_idem x ms]

theorem insNode_comm {T : Type} {x y : LNode T} (hxy : x.id ≠ y.id) :
    ∀ l, insNode x (insNode y l) = insNode y (insNode x l)
  | [] => by
    rcases IdLt_total x.id y.id with h | h | h
    · simp [insNode, h, IdLt_asymm h, hxy, Ne.symm hxy]
    · exact absurd h hxy
    · simp [insNode, h, IdLt_asymm h, hxy, Ne.symm hxy]
  | m :: ms => by
    rcases IdLt_total x.id m.id with hx | hx | hx
    · rcases IdLt_total y.id m.id with hy | hy | hy
      · -- both sort below m: order decided by comparing x with y
        rcases IdLt_total x.id y.id with hxy2 | h | hyx2
        · simp [insNode, hx, hy, hxy2, IdLt_asymm hxy2, hxy, Ne.symm hxy]
        · exact absurd h hxy
        · simp [insNode, hx, hy, hyx2, IdLt_asymm hyx2, hxy, Ne.symm hxy]
      · -- y is already present as m
        simp [insNode, hx, hy, IdLt_irrefl, IdLt_asymm hx,
          Ne.symm (IdLt_ne hx)]
      · -- x below m, y above m
        have hxy' : IdLt x.id y.id := IdLt_trans hx hy
        simp [insNode, hx, hy, IdLt_asymm hx, IdLt_asymm hy,
          IdLt_asymm hxy', hxy, Ne.symm hxy, IdLt_ne hx, Ne.symm (IdLt_ne hy)]
    · rcases IdLt_total y.id m.id with hy | hy | hy
      · -- x is already present as m
        simp [insNode, hx, hy, IdLt_irrefl, IdLt_asymm hy,
          Ne.symm (IdLt_ne hy)]
      · exact absurd (hx.trans hy.symm) hxy
      · -- x present as m, y above m
        simp [insNode, hx, hy, IdLt_irrefl, IdLt_asymm hy,
          Ne.symm (IdLt_ne hy)]
    · rcases IdLt_total y.id m.id with hy | hy | hy
      · -- y below m, x above m
        have hyx' : IdLt y.id x.id := IdLt_trans hy hx
        simp [insNode, hx, hy, IdLt_asymm hx, IdLt_asymm hy,
          IdLt_asymm hyx', hxy, Ne.symm hxy, IdLt_ne hy, Ne.symm (IdLt_ne hx)]
      · -- y present as m, x above m
        simp [insNode, hx, hy, IdLt_irrefl, IdLt_asymm hx,
          Ne.symm (IdLt_ne hx)]
      · -- both above m: recurse
        simp [insNode, hx, hy, IdLt_asymm hx, IdLt_asymm hy,
          Ne.symm (IdLt_ne hx), Ne.symm (IdLt_ne hy), insNode_comm hxy ms]

theorem insTomb_idem (d : Id) :
    ∀ l, insTomb d (insTomb d l) = insTomb d l
  | [] => by simp [insTomb, IdLt_irrefl]
  | t :: ts => by
    by_cases h1 : IdLt d t
    · simp [insTomb, h1, IdLt_irrefl]
    · by_cases h2 : d = t
      · simp [insTomb, h1, h2, IdLt_irrefl]
      · simp [insTomb, h1, h2, insTomb_idem d ts]

theorem insTomb_comm (d e : Id) :
    ∀ l, insTomb d (insTomb e l) = insTomb e (insTomb d l) := by
  by_cases hde : d = e
  · subst hde; intro l; rfl
  · intro l
    induction l with
    | nil =>
      rcases IdLt_total d e with h | h | h
      · simp [insTomb, h, IdLt_asymm h, hde, Ne.symm hde]
      · exact absurd h hde
      · simp [insTomb, h, IdLt_asymm h, hde, Ne.symm hde]
    | cons t ts ih =>
      rcases IdLt_total d t with hx | hx | hx
      · rcases IdLt_total e t with hy | hy | hy
        · rcases IdLt_total d e with hxy2 | h | hyx2
          · simp [insTomb, hx, hy, hxy2, IdLt_asymm hxy2, hde, Ne.symm hde]
          · exact absurd h hde
          · simp [insTomb, hx, hy, hyx2, IdLt_asymm hyx2, hde, Ne.symm hde]
        · simp [insTomb, hx, hy, IdLt_irrefl, IdLt_asymm hx,
            Ne.symm (IdLt_ne hx)]
        · have hxy' : IdLt d e := IdLt_trans hx hy
          simp [insTomb, hx, hy, IdLt_asymm hx, IdLt_asymm hy,
            IdLt_asymm hxy', hde, Ne.symm hde, IdLt_ne hx,
            Ne.symm (IdLt_ne hy)]
      · rcases IdLt_total e t with hy | hy | hy
        · simp [insTomb, hx, hy, IdLt_irrefl, IdLt_asymm hy,
            Ne.symm (IdLt_ne hy)]
        · exact absurd (hx.trans hy.symm) hde
        · simp [insTomb, hx, hy, IdLt_irrefl, IdLt_asymm hy,
            Ne.symm (IdLt_ne hy)]
      · rcases IdLt_total e t with hy | hy | hy
        · have hyx' : IdLt e d := IdLt_trans hy hx
          simp [insTomb, hx, hy, IdLt_asymm hx, IdLt_asymm hy,
            IdLt_asymm hyx', hde, Ne.symm hde, IdLt_ne hy,
            Ne.symm (IdLt_ne hx)]
        · simp [insTomb, hx, hy, IdLt_irrefl, IdLt_asymm hx,
            Ne.symm (IdLt_ne hx)]
        · simp [insTomb, hx, hy, IdLt_asymm hx, IdLt_asymm hy,
            Ne.symm (IdLt_ne hx), Ne.symm (IdLt_ne hy), ih]

/-! ## Idempotence and commutativity of operation application -/

theorem applyOp_idem {T : Type} (s : LState T) (op : LOp T) :
    applyOp (applyOp s op) op = applyOp s op := by
  cases op with
  | insert n => simp [applyOp, insNode_idem]
  | delete d => simp [applyOp, insTomb_idem]

theorem applyOp_comm {T : Type} (s : LState T) (op1 op2 : LOp T)
    (h : Concurrent op1 op2) :
    applyOp (applyOp s op1) op2 = applyOp (applyOp s op2) op1 := by
  cases op1 with
  | insert n1 =>
    cases op2 with
    | insert n2 =>
      have h' : n1.id ≠ n2.id := h
      simp [applyOp, insNode_comm (Ne.symm h') s.nodes]
    | delete d => simp [applyOp]
  | delete d1 =>
    cases op2 with
    | insert n2 => simp [applyOp]
    | delete d2 => simp [applyOp, insTomb_comm d2 d1 s.tombs]

theorem vcGet_cons (q : Nat × Nat) (qs : VClock) (a : Nat) :
    vcGet (q :: qs) a = if q.1 = a then max q.2 (vcGet qs a) else vcGet qs a :=
  rfl

theorem vcGet_ge {c : VClock} {p : Nat × Nat} (hp : p ∈ c) :
    p.2 ≤ vcGet c p.1 := by
  induction c with
  | nil => cases hp
  | cons q qs ih =>
    rcases List.mem_cons.mp hp with rfl | hp
    · simp [vcGet_cons]
    · have := ih hp
      by_cases hq : q.1 = p.1 <;> simp [vcGet_cons, hq] <;> omega

theorem VCLe.refl (c : VClock) : VCLe c c :=
  fun _ hp => vcGet_ge hp

theorem applyReg_idem {V : Type} (v : V) (ctx : VClock) (reg : MVReg V) :
    applyReg v ctx (applyReg v ctx reg) = applyReg v ctx reg := by
  unfold applyReg
  rw [List.filter_append, List.filter_filter]
  simp [VCLe.refl]

theorem applyM_idem {K V : Type} [DecidableEq K] (s : MapState K V)
    (op : MOp K V) : applyM (applyM s op) op = applyM s op := by
  set f := fun kv : K × MVReg V =>
    if kv.1 = op.key then (kv.1, applyReg op.value op.ctx kv.2) else kv
    with hf
  by_cases h : s.any (fun kv => decide (kv.1 = op.key))
  · have h1 : applyM s op = s.map f := by simp [applyM, h, hf]
    have hany : (s.map f).any (fun kv => decide (kv.1 = op.key)) = true := by
      rw [List.any_map]
      have hcomp : ((fun kv : K × MVReg V => decide (kv.1 = op.key)) ∘ f)
          = fun kv : K × MVReg V => decide (kv.1 = op.key) := by
        funext kv
        by_cases hk : kv.1 = op.key <;> simp [hf, hk]
      rw [hcomp]; exact h
    have h2 : applyM (s.map f) op = (s.map f).map f := by
      simp [applyM, hany, hf]
    rw [h1, h2, List.map_map]
    congr 1
    funext kv
    by_cases hk : kv.1 = op.key <;> simp [hf, hk, applyReg_idem]
  · have h1 : applyM s op = s ++ [(op.key, applyReg op.value op.ctx [])] := by
      simp [applyM, h]
    have hany : (s ++ [(op.key, applyReg op.value op.ctx [])]).any
        (fun kv => decide (kv.1 = op.key)) = true := by simp
    have h2 : applyM (s ++ [(op.key, applyReg op.value op.ctx [])]) op
        = (s ++ [(op.key, applyReg op.value op.ctx [])]).map f := by
      simp [applyM, hany, hf]
    have h3 : s.map f = s := by
      have hall : ∀ kv ∈ s, f kv = kv := by
        intro kv hkv
        have hk : ¬ (kv.1 = op.key) := by
          intro hk
          exact h (List.any_eq_true.mpr ⟨kv, hkv, by simp [hk]⟩)
        simp [hf, hk]
      calc s.map f = s.map id := List.map_congr_left hall
        _ = s := List.map_id s
    rw [h1, h2, List.map_append, h3]
    simp [hf, applyReg_idem]

/-- C1: for every list state `S` and every two sequence operations generated
concurrently — neither causally depends on the other, so by the global
uniqueness of identities (§3) two concurrent inserts never carry the same
identity, which is what `Concurrent` captures — applying them in either
order yields the same state.  Consequently two replicas that have applied
the same operation set hold identical states and therefore compute
identical visible sequences. -/
theorem commutativity_under_concurrency {T : Type} (s : LState T)
    (op1 op2 : LOp T) (h : Concurrent op1 op2) :
    applyOp (applyOp s op1) op2 = applyOp (applyOp s op2) op1 :=
  applyOp_comm s op1 op2 h

/-- Witness for C1: two concurrent inserts from actors 1 and 2 applied to
the empty list state in both orders. -/
theorem commutativity_under_concurrency_witness :
    Concurrent (LOp.insert ⟨[((0 : Int), 1, 1)], (10 : Nat)⟩)
      (LOp.insert ⟨[((0 : Int), 2, 1)], 20⟩) ∧
    applyOp (applyOp (LState.mk [] [])
        (LOp.insert ⟨[((0 : Int), 1, 1)], (10 : Nat)⟩))
        (LOp.insert ⟨[((0 : Int), 2, 1)], 20⟩)
      = applyOp (applyOp (LState.mk [] [])
        (LOp.insert ⟨[((0 : Int), 2, 1)], 20⟩))
        (LOp.insert ⟨[((0 : Int), 1, 1)], 10⟩) :=
  ⟨by decide, commutativity_under_concurrency _ _ _ (by decide)⟩

/-- C2: for every state `S` and every operation `op`, applying `op` twice
equals applying it once — for the sequence CRDT and for the map CRDT alike.
Both applications are total functions, so a replayed batch containing
duplicate or already-applied operations is absorbed without error, leaving
the state as if each operation were applied exactly once. -/
theorem idempotence_of_apply :
    (∀ (T : Type) (s : LState T) (op : LOp T),
      applyOp (applyOp s op) op = applyOp s op) ∧
    (∀ (K V : Type) [DecidableEq K] (s : MapState K V) (op : MOp K V),
      applyM (applyM s op) op = applyM s op) := by
  refine ⟨fun T s op => applyOp_idem s op, ?_⟩
  intro K V _ s op
  exact applyM_idem s op

/-! ## Tape bookkeeping -/

theorem commitOps_fields {T : Type} (ops : List (LOp T)) :
    ∀ s : SyncedList T,
      (s.commitOps ops).tape = s.tape ++ ops
      ∧ (s.commitOps ops).actor = s.actor
      ∧ (s.commitOps ops).list = ops.foldl applyOp s.list := by
  induction ops with
  | nil => intro s; simp [SyncedList.commitOps]
  | cons op ops ih =>
    intro s
    have h := ih (s.commitOp op)
    simp only [SyncedList.commitOps, List.foldl_cons] at h ⊢
    simpa [SyncedList.commitOp, List.append_assoc] using h

theorem runMuts_tape {T : Type} (ms : List (Mut T)) :
    ∀ s s' : SyncedList T, runMuts s ms = some s' →
      s'.tape = s.tape ++ opsOf s ms := by
  induction ms with
  | nil =>
    intro s s' h
    simp only [runMuts, Option.some.injEq] at h
    subst h
    simp [opsOf]
  | cons m ms ih =>
    intro s s' h
    simp only [runMuts, stepMut, Option.map_eq_map, Option.bind_eq_bind] at h
    rcases hg : genOps s m with _ | g
    · rw [hg] at h; simp at h
    · rw [hg] at h
      simp at h
      have := ih (s.commitOps g) s' h
      rw [this, (commitOps_fields g s).1, opsOf, hg]
      simp [List.append_assoc]

/-- C4: after a sequence of local mutations on a replica whose tape was
empty (i.e. since the last extraction), `extract` returns exactly the
operations those mutations generated, in generation order, and leaves the
tape empty; an immediately subsequent `extract` returns the empty sequence,
and `extract` on a replica with no pending operations returns the empty
sequence (it is a total function, so no error). -/
theorem tape_completeness {T : Type} (s s' : SyncedList T)
    (ms : List (Mut T)) (h0 : s.tape = []) (h : runMuts s ms = some s') :
    s'.extract.1 = opsOf s ms
    ∧ s'.extract.2.tape = []
    ∧ s'.extract.2.extract.1 = []
    ∧ s.extract.1 = [] := by
  have ht := runMuts_tape ms s s' h
  simp [SyncedList.extract, ht, h0]

/-- Witness for C4: the §8 scenario mutations on a fresh replica. -/
theorem tape_completeness_witness :
    (SyncedList.new Nat).tape = []
    ∧ runMuts (SyncedList.new Nat) sampleMuts = some sampleRun
    ∧ (sampleRun.extract.1 = opsOf (SyncedList.new Nat) sampleMuts
       ∧ sampleRun.extract.2.tape = []
       ∧ sampleRun.extract.2.extract.1 = []
       ∧ (SyncedList.new Nat).extract.1 = []) :=
  ⟨rfl, by decide,
    tape_completeness (SyncedList.new Nat) sampleRun sampleMuts rfl
      (by decide)⟩

/-- C7: cloning a replica (list or map) produces a replica whose actor is
the source's actor plus one, whose CRDT state equals the source's, and
whose tape is empty; `clone` reads the source through a shared reference,
so the source replica is unchanged (here: a pure function of the source). -/
theorem replica_fork_identity {T K V : Type} (s : SyncedList T)
    (m : SyncedMap K V) :
    (s.clone.actor = s.actor + 1 ∧ s.clone.list = s.list
      ∧ s.clone.tape = [])
    ∧ (m.clone.actor = m.actor + 1 ∧ m.clone.map = m.map
      ∧ m.clone.tape = []) :=
  ⟨⟨rfl, rfl, rfl⟩, ⟨rfl, rfl, rfl⟩⟩

/-- C8: the serialized snapshot of a list replica has exactly two fields —
the CRDT state and `actor + 1` — and excludes the pending tape, so a
replica deserialized from any snapshot starts with an empty tape no matter
how many operations were pending at serialization time. -/
theorem snapshot_excludes_tape {T : Type} (s : SyncedList T) :
    serialize s = ⟨s.list, s.actor + 1⟩
    ∧ (deserialize (serialize s)).tape = []
    ∧ (deserialize (serialize s)).list = s.list :=
  ⟨rfl, rfl, rfl⟩

theorem toSeq_length {T : Type} (s : LState T) :
    (toSeq s).length = llen s := by
  simp [toSeq, llen]

/-- C9: the read accessor `index` returns the element at visible position
`idx` when `idx < len()` (the panic branch is unreachable then), and
reaches the panic branch (modelled `none`) otherwise.  It is a function of
the replica returning only a value, so it mutates neither list nor tape. -/
theorem index_accessor {T : Type} (s : SyncedList T) (idx : Nat) :
    (idx < s.len →
      s.index idx = position s.list idx ∧ (s.index idx).isSome = true)
    ∧ (¬ idx < s.len → s.index idx = none) := by
  constructor
  · intro h
    have hlen : idx < (toSeq s.list).length := by
      rw [toSeq_length]; exact h
    have hsome : position s.list idx
        = some ((toSeq s.list).get ⟨idx, hlen⟩) := by
      simp [position, List.get?_eq_get hlen]
    constructor
    · simp [SyncedList.index, h]
    · simp [SyncedList.index, h, hsome]
  · intro h
    simp [SyncedList.index, h]

/-- Witness for C9: index 0 of the sample replica is in range, index 5 is
out of range. -/
theorem index_accessor_witness :
    (sampleList.index 0 = position sampleList.list 0
      ∧ (sampleList.index 0).isSome = true)
    ∧ sampleList.index 5 = none :=
  ⟨(index_accessor sampleList 0).1 (by decide),
   (index_accessor sampleList 5).2 (by decide)⟩

/-! ## Ordered insertion: membership, permutation, sortedness, position -/

theorem mem_insNode {T : Type} {b x : LNode T} :
    ∀ {l : List (LNode T)}, b ∈ insNode x l → b = x ∨ b ∈ l
  | [], h => Or.inl (by simpa [insNode] using h)
  | m :: ms, h => by
    by_cases h1 : IdLt x.id m.id
    · simp only [insNode, if_pos h1] at h
      rcases List.mem_cons.mp h with rfl | h
      · exact Or.inl rfl
      · exact Or.inr h
    · by_cases h2 : x.id = m.id
      · simp only [insNode, if_neg h1, if_pos h2] at h
        exact Or.inr h
      · simp only [insNode, if_neg h1, if_neg h2] at h
        rcases List.mem_cons.mp h with rfl | h
        · exact Or.inr (List.mem_cons_self _ _)
        · rcases mem_insNode h with h | h
          · exact Or.inl h
          · exact Or.inr (List.mem_cons_of_mem _ h)

theorem insNode_perm {T : Type} {x : LNode T} :
    ∀ {l : List (LNode T)}, x.id ∉ l.map (fun n => n.id) →
      List.Perm (insNode x l) (x :: l)
  | [], _ => by simp [insNode]
  | m :: ms, hx => by
    have hxm : x.id ≠ m.id := by
      intro h; exact hx (by simp [h])
    have hxms : x.id ∉ ms.map (fun n => n.id) := by
      intro h; exact hx (by simp [h])
    by_cases h1 : IdLt x.id m.id
    · simp [insNode, h1]
    · simp only [insNode, if_neg h1, if_neg hxm]
      exact ((insNode_perm hxms).cons m).trans (List.Perm.swap x m ms)

theorem insNode_sorted {T : Type} {x : LNode T} :
    ∀ {l : List (LNode T)},
      l.Pairwise (fun a b => IdLt a.id b.id) →
      (insNode x l).Pairwise (fun a b => IdLt a.id b.id)
  | [], _ => by simp [insNode]
  | m :: ms, hl => by
    rcases List.pairwise_cons.mp hl with ⟨hm, hms⟩
    by_cases h1 : IdLt x.id m.id
    · simp only [insNode, if_pos h1]
      refine List.pairwise_cons.mpr ⟨?_, hl⟩
      intro b hb
      rcases List.mem_cons.mp hb with rfl | hb
      · exact h1
      · exact IdLt_trans h1 (hm b hb)
    · by_cases h2 : x.id = m.id
      · simpa only [insNode, if_neg h1, if_pos h2] using hl
      · simp only [insNode, if_neg h1, if_neg h2]
        refine List.pairwise_cons.mpr ⟨?_, insNode_sorted hms⟩
        intro b hb
        rcases mem_insNode hb with rfl | hb
        · exact IdLt_of_not h1 (fun h => h2 h)
        · exact hm b hb

theorem mem_insTomb {x d : Id} :
    ∀ {l : List Id}, x ∈ insTomb d l ↔ x = d ∨ x ∈ l
  | [] => by simp [insTomb]
  | t :: ts => by
    by_cases h1 : IdLt d t
    · simp only [insTomb, if_pos h1]
      constructor
      · intro h
        rcases List.mem_cons.mp h with rfl | h
        · exact Or.inl rfl
        · exact Or.inr h
      · rintro (rfl | h)
        · exact List.mem_cons_self _ _
        · exact List.mem_cons_of_mem _ h
    · by_cases h2 : d = t
      · subst h2
        simp only [insTomb, if_neg h1, if_pos rfl]
        constructor
        · exact Or.inr
        · rintro (rfl | h)
          · exact List.mem_cons_self _ _
          · exact h
      · simp only [insTomb, if_neg h1, if_neg h2, List.mem_cons,
          mem_insTomb (l := ts)]
        tauto

theorem liveNodes_delete {T : Type} (s : LState T) (d : Id) :
    liveNodes (applyOp s (.delete d))
      = (liveNodes s).filter (fun n => decide (n.id ≠ d)) := by
  unfold liveNodes applyOp
  rw [List.filter_filter]
  apply List.filter_congr
  intro n _
  by_cases h1 : n.id = d <;> by_cases h2 : n.id ∈ s.tombs <;>
    simp [mem_insTomb, h1, h2]

theorem liveNodes_nodes {T : Type} {s : LState T} {n : LNode T}
    (h : n ∈ liveNodes s) : n ∈ s.nodes :=
  List.mem_of_mem_filter h

theorem liveNodes_sorted {T : Type} {s : LState T}
    (h : s.nodes.Pairwise (fun a b => IdLt a.id b.id)) :
    (liveNodes s).Pairwise (fun a b => IdLt a.id b.id) :=
  h.filter _

theorem liveNodes_ids {T : Type} {s : LState T} {i : Id}
    (h : i ∉ s.nodes.map (fun n => n.id)) :
    i ∉ (liveNodes s).map (fun n => n.id) := by
  intro hmem
  rcases List.mem_map.mp hmem with ⟨n, hn, rfl⟩
  exact h (List.mem_map.mpr ⟨n, liveNodes_nodes hn, rfl⟩)

theorem sorted_take_bound {T : Type} :
    ∀ {l : List (LNode T)} {k : Nat} {b : LNode T},
      l.Pairwise (fun a b => IdLt a.id b.id) → l.get? k = some b →
      ∀ n ∈ l.take (k + 1), n = b ∨ IdLt n.id b.id := by
  intro l
  induction l with
  | nil => intro k b _ hb; simp [List.get?] at hb
  | cons m ms ih =>
    intro k b hl hb n hn
    rcases List.pairwise_cons.mp hl with ⟨hm, hms⟩
    cases k with
    | zero =>
      simp only [List.get?] at hb
      cases hb
      simp only [List.take, List.mem_singleton] at hn
      exact Or.inl hn
    | succ j =>
      simp only [List.get?] at hb
      simp only [List.take, List.mem_cons] at hn
      rcases hn with rfl | hn
      · exact Or.inr (hm b (List.get?_mem hb))
      · exact ih hms hb n hn

theorem sorted_drop_bound {T : Type} :
    ∀ {l : List (LNode T)} {k : Nat} {b : LNode T},
      l.Pairwise (fun a b => IdLt a.id b.id) → l.get? k = some b →
      ∀ n ∈ l.drop k, n = b ∨ IdLt b.id n.id := by
  intro l
  induction l with
  | nil => intro k b _ hb; simp [List.get?] at hb
  | cons m ms ih =>
    intro k b hl hb n hn
    rcases List.pairwise_cons.mp hl with ⟨hm, hms⟩
    cases k with
    | zero =>
      simp only [List.get?] at hb
      cases hb
      simp only [List.drop, List.mem_cons] at hn
      rcases hn with rfl | hn
      · exact Or.inl rfl
      · exact Or.inr (hm n hn)
    | succ j =>
      simp only [List.get?] at hb
      simp only [List.drop] at hn
      exact ih hms hb n hn

theorem insNode_at {T : Type} (x : LNode T) :
    ∀ (l : List (LNode T)) (k : Nat),
      (∀ n ∈ l.take k, IdLt n.id x.id) →
      (∀ n ∈ l.drop k, IdLt x.id n.id) →
      insNode x l = l.take k ++ x :: l.drop k := by
  intro l
  induction l with
  | nil => intro k _ _; simp [insNode]
  | cons m ms ih =>
    intro k h1 h2
    cases k with
    | zero =>
      have hm : IdLt x.id m.id := h2 m (by simp)
      simp [insNode, hm]
    | succ j =>
      have hm : IdLt m.id x.id := h1 m (by simp)
      have := ih j
        (fun n hn => h1 n (by simpa [List.take] using List.mem_cons_of_mem m hn))
        (fun n hn => h2 n (by simpa [List.drop] using hn))
      simp [insNode, IdLt_asymm hm, Ne.symm (IdLt_ne hm), this]

theorem filter_erase_at {T : Type} :
    ∀ {l : List (LNode T)} {k : Nat} {d : LNode T},
      l.Pairwise (fun a b => IdLt a.id b.id) → l.get? k = some d →
      l.filter (fun n => decide (n.id ≠ d.id)) = l.take k ++ l.drop (k + 1) := by
  intro l
  induction l with
  | nil => intro k d _ hd; simp [List.get?] at hd
  | cons m ms ih =>
    intro k d hl hd
    rcases List.pairwise_cons.mp hl with ⟨hm, hms⟩
    cases k with
    | zero =>
      simp only [List.get?] at hd
      cases hd
      have hkeep : ∀ n ∈ ms, (fun n : LNode T => decide (n.id ≠ m.id)) n := by
        intro n hn
        simpa using Ne.symm (IdLt_ne (hm n hn))
      rw [List.filter_cons_of_neg (by simp), List.filter_eq_self.mpr hkeep]
      simp
    | succ j =>
      simp only [List.get?] at hd
      have hmd : m.id ≠ d.id := IdLt_ne (hm d (List.get?_mem hd))
      rw [List.filter_cons_of_pos (by simpa using hmd), ih hms hd]
      simp [List.take_succ_cons, List.drop_succ_cons]

/-! ## Identifier allocation: betweenness and freshness -/

theorem IdLt_append_single : ∀ (l : Id) (x : Entry), IdLt l (l ++ [x])
  | [], _ => trivial
  | _ :: es, x => Or.inr ⟨rfl, IdLt_append_single es x⟩

theorem IdLt_append_congr {xs ys : Id} (h : IdLt xs ys) :
    ∀ (p : Id), IdLt (p ++ xs) (p ++ ys)
  | [] => h
  | _ :: p => Or.inr ⟨rfl, IdLt_append_congr h p⟩

theorem IdLt_append_of_not_pref :
    ∀ {l r : Id}, IdLt l r → ¬ l <+: r → ∀ (x : Entry), IdLt (l ++ [x]) r
  | [], r, _, hp, _ => absurd (List.nil_prefix (l := r)) hp
  | _ :: _, [], h, _, _ => absurd h (fun hh => hh)
  | e :: es, f :: fs, h, hp, x => by
    rcases h with h | ⟨rfl, h⟩
    · exact Or.inl h
    · have hp' : ¬ es <+: fs := by
        intro hpre
        rcases hpre with ⟨t, ht⟩
        exact hp ⟨t, by rw [List.cons_append, ht]⟩
      exact Or.inr ⟨rfl, IdLt_append_of_not_pref h hp' x⟩

theorem headPos_alloc_lt {r : Id} (hr : r ≠ []) (a c : Nat) :
    IdLt [(headPos r - 1, a, c)] r := by
  cases r with
  | nil => exact absurd rfl hr
  | cons e rs =>
    refine Or.inl (Or.inl ?_)
    show headPos (e :: rs) - 1 < e.pos
    simp only [headPos]
    omega

theorem headPlus_alloc_gt (l : Id) (a c : Nat) :
    IdLt l [(headPos l + 1, a, c)] := by
  cases l with
  | nil => trivial
  | cons e ls =>
    refine Or.inl (Or.inl ?_)
    show e.pos < headPos (e :: ls) + 1
    simp only [headPos]
    omega

theorem allocMid_shape (l r : Id) (a c : Nat) :
    ∃ p : Int, allocMid l r a c = l ++ [(p, a, c)] := by
  unfold allocMid
  by_cases h : l <+: r
  · rcases hr : r.get? l.length with _ | e
    · exact ⟨0, by rw [if_pos h]⟩
    · exact ⟨e.pos - 1, by rw [if_pos h]⟩
  · exact ⟨0, by rw [if_neg h]⟩

theorem allocMid_gt_left (l r : Id) (a c : Nat) :
    IdLt l (allocMid l r a c) := by
  obtain ⟨p, hp⟩ := allocMid_shape l r a c
  rw [hp]
  exact IdLt_append_single l _

theorem allocMid_lt_right {l r : Id} (h : IdLt l r) (a c : Nat) :
    IdLt (allocMid l r a c) r := by
  unfold allocMid
  by_cases hp : l <+: r
  · obtain ⟨t, rfl⟩ := hp
    cases t with
    | nil =>
      rw [List.append_nil] at h
      exact absurd h (IdLt_irrefl l)
    | cons e rest =>
      have hget : (l ++ e :: rest).get? l.length = some e := by
        rw [List.get?_append_right (Nat.le_refl _)]
        simp
      rw [if_pos ⟨e :: rest, rfl⟩, hget]
      refine IdLt_append_congr ?_ l
      refine Or.inl (Or.inl ?_)
      show e.pos - 1 < e.pos
      omega
  · rw [if_neg hp]
    exact IdLt_append_of_not_pref h hp _

theorem foldr_max_ge {c : Nat} : ∀ {l : List Nat}, c ∈ l → c ≤ l.foldr max 0 := by
  intro l h
  induction l with
  | nil => cases h
  | cons d ds ih =>
    rcases List.mem_cons.mp h with rfl | h
    · exact le_max_left _ _
    · exact le_trans (ih h) (le_max_right _ _)

theorem freshCtr_gt {T : Type} {s : LState T} {cc : Nat}
    (h : cc ∈ ctrsOf s) : cc < freshCtr s :=
  Nat.lt_succ_of_le (foldr_max_ge h)

theorem allocBetween_ctr (L R : Option Id) (a c : Nat) :
    c ∈ idCtrs (allocBetween L R a c) := by
  cases L with
  | none =>
    cases R with
    | none => simp [allocBetween, idCtrs, Entry.ctr]
    | some r => simp [allocBetween, idCtrs, Entry.ctr]
  | some l =>
    cases R with
    | none => simp [allocBetween, idCtrs, Entry.ctr]
    | some r =>
      obtain ⟨p, hp⟩ := allocMid_shape l r a c
      simp [allocBetween, hp, idCtrs, Entry.ctr]

theorem allocAt_fresh {T : Type} (s : LState T) (idx a : Nat) :
    allocAt s idx a ∉ s.nodes.map (fun n => n.id)
    ∧ allocAt s idx a ∉ s.tombs := by
  have hctr : freshCtr s ∈ idCtrs (allocAt s idx a) :=
    allocBetween_ctr _ _ _ _
  constructor
  · intro hmem
    have hin : freshCtr s ∈ ctrsOf s := by
      unfold ctrsOf
      exact List.mem_flatMap.mpr
        ⟨allocAt s idx a, List.mem_append.mpr (Or.inl hmem), hctr⟩
    exact absurd (freshCtr_gt hin) (lt_irrefl _)
  · intro hmem
    have hin : freshCtr s ∈ ctrsOf s := by
      unfold ctrsOf
      exact List.mem_flatMap.mpr
        ⟨allocAt s idx a, List.mem_append.mpr (Or.inr hmem), hctr⟩
    exact absurd (freshCtr_gt hin) (lt_irrefl _)

theorem liveNodes_insert {T : Type} {s : LState T} {x : LNode T}
    (hs : s.nodes.Pairwise (fun a b => IdLt a.id b.id))
    (hx : x.id ∉ s.nodes.map (fun n => n.id))
    (ht : x.id ∉ s.tombs) :
    liveNodes (applyOp s (.insert x)) = insNode x (liveNodes s) := by
  have hlive := liveNodes_sorted (s := s) hs
  have hxlive := liveNodes_ids (s := s) hx
  have hpermL : List.Perm (liveNodes (applyOp s (.insert x)))
      (x :: liveNodes s) := by
    have h1 : List.Perm (insNode x s.nodes) (x :: s.nodes) := insNode_perm hx
    have h2 := h1.filter (fun n => decide (n.id ∉ s.tombs))
    simp only [liveNodes, applyOp]
    simpa [ht] using h2
  have hpermR : List.Perm (insNode x (liveNodes s)) (x :: liveNodes s) :=
    insNode_perm hxlive
  have hsortL : (liveNodes (applyOp s (.insert x))).Pairwise
      (fun a b => IdLt a.id b.id) := by
    simp only [liveNodes, applyOp]
    exact (insNode_sorted hs).filter _
  have hsortR := insNode_sorted (x := x) hlive
  letI : IsAntisymm (LNode T) (fun a b => IdLt a.id b.id) :=
    ⟨fun a b h1 h2 => absurd h2 (IdLt_asymm h1)⟩
  exact List.eq_of_perm_of_sorted (hpermL.trans hpermR.symm) hsortL hsortR

theorem sorted_get_lt {T : Type} :
    ∀ {l : List (LNode T)}, l.Pairwise (fun a b => IdLt a.id b.id) →
      ∀ {i j : Nat} {x y : LNode T}, i < j →
        l.get? i = some x → l.get? j = some y → IdLt x.id y.id := by
  intro l
  induction l with
  | nil => intro _ i j x y _ hx _; simp [List.get?] at hx
  | cons m ms ih =>
    intro hl i j x y hij hx hy
    rcases List.pairwise_cons.mp hl with ⟨hm, hms⟩
    cases i with
    | zero =>
      simp only [List.get?] at hx
      cases hx
      cases j with
      | zero => omega
      | succ j' =>
        simp only [List.get?] at hy
        exact hm y (List.get?_mem hy)
    | succ i' =>
      cases j with
      | zero => omega
      | succ j' =>
        simp only [List.get?] at hx hy
        exact ih hms (Nat.lt_of_succ_lt_succ hij) hx hy

/-! ## Visible-position correctness of insert and delete -/

theorem insertIdxOp_live {T : Type} {s : LState T} {idx : Nat} (v : T)
    (a : Nat) (hwf : WF s) (hidx : idx ≤ llen s) :
    ∃ x : LNode T, x.value = v
      ∧ insertIdxOp s idx v a = some (.insert x)
      ∧ liveNodes (applyOp s (.insert x))
          = (liveNodes s).take idx ++ x :: (liveNodes s).drop idx := by
  obtain ⟨hsort, hne⟩ := hwf
  have hlive := liveNodes_sorted (s := s) hsort
  refine ⟨⟨allocAt s idx a, v⟩, rfl, by simp [insertIdxOp, hidx], ?_⟩
  have hfresh := allocAt_fresh s idx a
  rw [liveNodes_insert hsort hfresh.1 hfresh.2]
  have hxid : (⟨allocAt s idx a, v⟩ : LNode T).id
      = allocBetween
          (if idx = 0 then none
            else ((liveNodes s).get? (idx - 1)).map (fun n => n.id))
          (((liveNodes s).get? idx).map (fun n => n.id))
          a (freshCtr s) := rfl
  -- the allocated identity sits strictly between the two visible neighbours
  have hleft : ∀ n ∈ (liveNodes s).take idx,
      IdLt n.id (allocAt s idx a) := by
    cases hi : idx with
    | zero => intro n hn; simp at hn
    | succ j =>
      subst hi
      have hj : j < (liveNodes s).length := by
        have : j + 1 ≤ llen s := hidx
        simp only [llen] at this
        omega
      obtain ⟨lnode, hlnode⟩ : ∃ ln, (liveNodes s).get? j = some ln :=
        ⟨_, List.get?_eq_get hj⟩
      have hL : IdLt lnode.id (allocAt s (j + 1) a) := by
        rw [show allocAt s (j + 1) a = (⟨allocAt s (j + 1) a, v⟩ : LNode T).id
          from rfl, hxid]
        simp only [Nat.succ_ne_zero, if_neg, Nat.add_sub_cancel, hlnode,
          Option.map_some']
        rcases hr : (liveNodes s).get? (j + 1) with _ | rnode
        · simp only [if_false, Option.map_none']
          exact headPlus_alloc_gt lnode.id a (freshCtr s)
        · simp only [if_false, Option.map_some']
          exact allocMid_gt_left lnode.id rnode.id a (freshCtr s)
      intro n hn
      rcases sorted_take_bound hlive hlnode n hn with rfl | h
      · exact hL
      · exact IdLt_trans h hL
  have hright : ∀ n ∈ (liveNodes s).drop idx,
      IdLt (allocAt s idx a) n.id := by
    rcases hr : (liveNodes s).get? idx with _ | rnode
    · have : (liveNodes s).length ≤ idx := by
        by_contra hlt
        push_neg at hlt
        rw [List.get?_eq_get hlt] at hr
        cases hr
      intro n hn
      rw [List.drop_eq_nil_of_le this] at hn
      cases hn
    · have hrne : rnode.id ≠ [] :=
        hne rnode (liveNodes_nodes (List.get?_mem hr))
      have hR : IdLt (allocAt s idx a) rnode.id := by
        rw [show allocAt s idx a = (⟨allocAt s idx a, v⟩ : LNode T).id
          from rfl, hxid]
        cases hi : idx with
        | zero =>
          subst hi
          simp only [if_pos rfl, hr, Option.map_some']
          exact headPos_alloc_lt hrne a (freshCtr s)
        | succ j =>
          subst hi
          have hj : j < (liveNodes s).length := by
            have h1 : j + 1 < (liveNodes s).length := by
              by_contra hlt
              push_neg at hlt
              rw [List.get?_eq_none.mpr hlt] at hr
              cases hr
            omega
          obtain ⟨lnode, hlnode⟩ : ∃ ln, (liveNodes s).get? j = some ln :=
            ⟨_, List.get?_eq_get hj⟩
          have hlr : IdLt lnode.id rnode.id :=
            sorted_get_lt hlive (Nat.lt_succ_self j) hlnode hr
          simp only [Nat.succ_ne_zero, if_neg, Nat.add_sub_cancel, hlnode,
            hr, Option.map_some']
          exact allocMid_lt_right hlr a (freshCtr s)
      intro n hn
      rcases sorted_drop_bound hlive hr n hn with rfl | h
      · exact hR
      · exact IdLt_trans hR h
  exact insNode_at _ _ idx hleft hright

theorem delete_live {T : Type} {s : LState T} {idx : Nat} {d : LNode T}
    (hsort : s.nodes.Pairwise (fun a b => IdLt a.id b.id))
    (hd : (liveNodes s).get? idx = some d) :
    liveNodes (applyOp s (.delete d.id))
      = (liveNodes s).take idx ++ (liveNodes s).drop (idx + 1) := by
  rw [liveNodes_delete]
  exact filter_erase_at (liveNodes_sorted hsort) hd

theorem length_take_drop {α : Type} {l : List α} {idx : Nat}
    (h : idx < l.length) :
    (l.take idx ++ l.drop (idx + 1)).length = l.length - 1 := by
  simp only [List.length_append, List.length_take, List.length_drop]
  omega

theorem get?_at_insert {α : Type} {A : List α} {idx : Nat}
    (h : idx ≤ A.length) (v : α) :
    (A.take idx ++ v :: A.drop idx).get? idx = some v := by
  have hlen : (A.take idx).length = idx := by
    simp [List.length_take, Nat.min_eq_left h]
  rw [List.get?_append_right (by omega), hlen]
  simp

/-- C5: the index-anchored insert fails with an OutOfRange condition
surfaced to the caller — never silently clamped — for every index strictly
greater than the visible length; for every index at most the visible
length it succeeds and anchors the new identity at that visible position
(the visible sequence becomes the old one with `v` inserted at `idx`). -/
theorem insert_out_of_range {T : Type} (s : SyncedList T) (idx : Nat)
    (v : T) (hwf : WF s.list) :
    (idx > llen s.list → s.insert idx v = none)
    ∧ (idx ≤ llen s.list → ∃ s' : SyncedList T, s.insert idx v = some s'
        ∧ toSeq s'.list
            = (toSeq s.list).take idx ++ v :: (toSeq s.list).drop idx) := by
  constructor
  · intro h
    simp [SyncedList.insert, insertIdxOp, Nat.not_le.mpr h]
  · intro h
    obtain ⟨x, hxv, hop, hlive⟩ := insertIdxOp_live v s.actor hwf h
    refine ⟨s.commitOp (.insert x), ?_, ?_⟩
    · simp [SyncedList.insert, hop]
    · show toSeq (applyOp s.list (.insert x)) = _
      rw [toSeq, hlive]
      simp [toSeq, hxv, List.map_take, List.map_drop]

/-- Witness for C5: inserting at index 5 of a 3-element replica fails;
inserting 99 at index 1 yields visible sequence `[10, 99, 20, 30]`. -/
theorem insert_out_of_range_witness :
    (sampleList.insert 5 99 = none)
    ∧ (∃ s', sampleList.insert 1 99 = some s'
        ∧ toSeq s'.list = (toSeq sampleList.list).take 1
            ++ 99 :: (toSeq sampleList.list).drop 1) :=
  ⟨(insert_out_of_range sampleList 5 99 (by decide)).1 (by decide),
   (insert_out_of_range sampleList 1 99 (by decide)).2 (by decide)⟩

theorem dropGuard_commit {T : Type} {s : SyncedList T} {i : Nat} (w : T)
    (hwf : WF s.list) (hi : i < llen s.list) :
    ∃ d : LNode T, (liveNodes s.list).get? i = some d
      ∧ ∃ x : LNode T, x.value = w
        ∧ dropGuard s ⟨w, i, true⟩
            = (s.commitOp (.delete d.id)).commitOp (.insert x)
        ∧ position (dropGuard s ⟨w, i, true⟩).list i = some w := by
  obtain ⟨hsort, hne⟩ := hwf
  obtain ⟨d, hd⟩ : ∃ d, (liveNodes s.list).get? i = some d :=
    ⟨_, List.get?_eq_get hi⟩
  have hdel : deleteIdxOp s.list i = some (.delete d.id) := by
    unfold deleteIdxOp
    rw [hd]
    rfl
  have hwf₁ : WF (s.commitOp (.delete d.id)).list := ⟨hsort, hne⟩
  have hlive₁ : liveNodes (s.commitOp (.delete d.id)).list
      = (liveNodes s.list).take i ++ (liveNodes s.list).drop (i + 1) :=
    delete_live hsort hd
  have hlen₁ : llen (s.commitOp (.delete d.id)).list = llen s.list - 1 := by
    show (liveNodes (s.commitOp (.delete d.id)).list).length = _
    rw [hlive₁]
    exact length_take_drop hi
  have hi₁ : i ≤ llen (s.commitOp (.delete d.id)).list := by
    rw [hlen₁]; omega
  obtain ⟨x, hxv, hop, hlive₂⟩ :=
    insertIdxOp_live w s.actor hwf₁ hi₁
  have hdrop : dropGuard s ⟨w, i, true⟩
      = (s.commitOp (.delete d.id)).commitOp (.insert x) := by
    simp [dropGuard, hdel, hop]
  refine ⟨d, hd, x, hxv, hdrop, ?_⟩
  rw [hdrop]
  show position (applyOp (s.commitOp (.delete d.id)).list (.insert x)) i
    = some w
  rw [position, toSeq, hlive₂]
  rw [List.map_append, List.map_cons, List.map_take, List.map_drop, hxv]
  exact get?_at_insert (by rw [List.length_map]; exact hi₁) w

/-- C3: for a valid visible index, `lock` yields a guard without touching
replica state or tape (it is a read returning only the guard); dropping the
guard unwritten commits nothing and leaves the replica exactly as it was;
dropping it after writing `v` makes the element at visible index `i` equal
`v` and appends exactly two tape entries — a delete of the old identity at
`i` followed by an insert carrying `v`. -/
theorem guard_roundtrip {T : Type} (s : SyncedList T) (i : Nat) (v : T)
    (hwf : WF s.list) (hi : i < llen s.list) :
    ∃ g, lock s i = some g ∧ dropGuard s g = s
      ∧ ∃ d : LNode T, (liveNodes s.list).get? i = some d
        ∧ ∃ x : LNode T, x.value = v
          ∧ (dropGuard s (gwrite g v)).tape
              = s.tape ++ [LOp.delete d.id, LOp.insert x]
          ∧ position (dropGuard s (gwrite g v)).list i = some v := by
  have hlen : i < (toSeq s.list).length := by rw [toSeq_length]; exact hi
  have hlock : lock s i
      = some ⟨(toSeq s.list).get ⟨i, hlen⟩, i, false⟩ := by
    unfold lock
    rw [if_pos (show s.len > i from hi), position, List.get?_eq_get hlen]
    rfl
  refine ⟨_, hlock, by simp [dropGuard], ?_⟩
  obtain ⟨d, hd, x, hxv, heq, hpos⟩ := dropGuard_commit (s := s) v hwf hi
  refine ⟨d, hd, x, hxv, ?_, hpos⟩
  show (dropGuard s ⟨v, i, true⟩).tape = _
  rw [heq]
  show ((s.commitOp _).commitOp _).tape = _
  simp [SyncedList.commitOp, List.append_assoc]

/-- Witness for C3: locking index 1 of the sample replica and writing 99. -/
theorem guard_roundtrip_witness :
    ∃ g, lock sampleList 1 = some g ∧ dropGuard sampleList g = sampleList
      ∧ ∃ d : LNode Nat, (liveNodes sampleList.list).get? 1 = some d
        ∧ ∃ x : LNode Nat, x.value = 99
          ∧ (dropGuard sampleList (gwrite g 99)).tape
              = sampleList.tape ++ [LOp.delete d.id, LOp.insert x]
          ∧ position (dropGuard sampleList (gwrite g 99)).list 1
              = some 99 :=
  guard_roundtrip sampleList 1 99 (by decide) (by decide)

/-- C10: obtaining a mutable reference through the guard marks it as
mutated regardless of whether the value changes, so dropping a guard whose
value was written back equal to its original value still commits a
delete-then-insert pair: exactly two operations are appended to the tape. -/
theorem deref_mut_always_dirty {T : Type} (s : SyncedList T) (i : Nat)
    (g : SyncedListGuard T) (hwf : WF s.list) (hi : i < llen s.list)
    (hg : lock s i = some g) :
    (derefMut g).was_mutated = true
    ∧ ∃ d x : LNode T, x.value = g.value
      ∧ (dropGuard s (gwrite g g.value)).tape
          = s.tape ++ [LOp.delete d.id, LOp.insert x] := by
  refine ⟨rfl, ?_⟩
  have hlen : i < (toSeq s.list).length := by rw [toSeq_length]; exact hi
  have hgidx : g.idx = i := by
    unfold lock at hg
    rw [if_pos (show s.len > i from hi), position,
      List.get?_eq_get hlen] at hg
    simp only [Option.map_some', Option.some.injEq] at hg
    rw [← hg]
  obtain ⟨d, hd, x, hxv, heq, _⟩ :=
    dropGuard_commit (s := s) g.value hwf hi
  refine ⟨d, x, hxv, ?_⟩
  have hgw : gwrite g g.value = (⟨g.value, i, true⟩ : SyncedListGuard T) := by
    rw [← hgidx]
    rfl
  rw [hgw, heq]
  show ((s.commitOp _).commitOp _).tape = _
  simp [SyncedList.commitOp, List.append_assoc]

/-- Witness for C10: writing back the value 20 read at index 1 of the
sample replica still produces two tape entries. -/
theorem deref_mut_always_dirty_witness :
    (derefMut (⟨20, 1, false⟩ : SyncedListGuard Nat)).was_mutated = true
    ∧ ∃ d x : LNode Nat,
      x.value = (⟨20, 1, false⟩ : SyncedListGuard Nat).value
      ∧ (dropGuard sampleList
          (gwrite ⟨20, 1, false⟩
            (⟨20, 1, false⟩ : SyncedListGuard Nat).value)).tape
          = sampleList.tape ++ [LOp.delete d.id, LOp.insert x] :=
  deref_mut_always_dirty sampleList 1 ⟨20, 1, false⟩ (by decide) (by decide)
    (by decide)

/-! ## Map reads: absent keys and value provenance -/

theorem applyM_find_other {K V : Type} [DecidableEq K] {s : MapState K V}
    {op : MOp K V} {k : K} (hk : op.key ≠ k) :
    (applyM s op).find? (fun kv => decide (kv.1 = k))
      = s.find? (fun kv => decide (kv.1 = k)) := by
  unfold applyM
  by_cases hany : s.any (fun kv => decide (kv.1 = op.key))
  · rw [if_pos hany, List.find?_map]
    have hcomp : ((fun kv : K × MVReg V => decide (kv.1 = k)) ∘
        (fun kv => if kv.1 = op.key
          then (kv.1, applyReg op.value op.ctx kv.2) else kv))
        = fun kv : K × MVReg V => decide (kv.1 = k) := by
      funext kv
      by_cases h : kv.1 = op.key <;> simp [h]
    rw [hcomp]
    rcases hf : s.find? (fun kv => decide (kv.1 = k)) with _ | kv0
    · rw [hf]; rfl
    · rw [hf]
      have hkv0 : kv0.1 = k := by simpa using List.find?_some hf
      simp [hkv0, Ne.symm hk]
  · rw [if_neg hany, List.find?_append]
    have h2 : List.find? (fun kv => decide (kv.1 = k))
        [(op.key, applyReg op.value op.ctx [])] = none := by
      simp [hk]
    rw [h2, Option.or_none]

theorem applyM_vals {K V : Type} [DecidableEq K] (s : MapState K V)
    (op : MOp K V) (k : K) (kv : K × MVReg V)
    (h : (applyM s op).find? (fun kv => decide (kv.1 = k)) = some kv) :
    ∀ e ∈ kv.2,
      (∃ kv0, s.find? (fun kv => decide (kv.1 = k)) = some kv0 ∧ e ∈ kv0.2)
      ∨ (op.key = k ∧ op.value = e.1) := by
  intro e he
  by_cases hk : op.key = k
  · subst hk
    unfold applyM at h
    by_cases hany : s.any (fun kv => decide (kv.1 = op.key))
    · rw [if_pos hany, List.find?_map] at h
      have hcomp : ((fun kv : K × MVReg V => decide (kv.1 = op.key)) ∘
          (fun kv => if kv.1 = op.key
            then (kv.1, applyReg op.value op.ctx kv.2) else kv))
          = fun kv : K × MVReg V => decide (kv.1 = op.key) := by
        funext kv
        by_cases hkv : kv.1 = op.key <;> simp [hkv]
      rw [hcomp] at h
      rcases hf : s.find? (fun kv => decide (kv.1 = op.key)) with _ | kv0
      · rw [hf] at h; cases h
      · rw [hf] at h
        simp only [Option.map_some', Option.some.injEq] at h
        have hkv0 : kv0.1 = op.key := by simpa using List.find?_some hf
        rw [← h] at he
        simp only [if_pos hkv0] at he
        unfold applyReg at he
        rcases List.mem_append.mp he with he | he
        · exact Or.inl ⟨kv0, hf, List.mem_of_mem_filter he⟩
        · simp only [List.mem_singleton] at he
          refine Or.inr ⟨rfl, ?_⟩
          rw [he]
    · rw [if_neg hany, List.find?_append] at h
      have hnone : s.find? (fun kv => decide (kv.1 = op.key)) = none := by
        rw [List.find?_eq_none]
        intro x hx hpx
        exact hany (List.any_eq_true.mpr ⟨x, hx, hpx⟩)
      rw [hnone, Option.none_or,
        List.find?_cons_of_pos _ (by simp)] at h
      rw [Option.some.injEq] at h
      subst h
      unfold applyReg at he
      simp only [List.filter_nil, List.nil_append, List.mem_singleton] at he
      refine Or.inr ⟨rfl, ?_⟩
      rw [he]
  · rw [applyM_find_other hk] at h
    exact Or.inl ⟨kv, h, he⟩

theorem replayM_find_none {K V : Type} [DecidableEq K]
    (ops : List (MOp K V)) :
    ∀ (s : MapState K V) (k : K), (∀ op ∈ ops, op.key ≠ k) →
      s.find? (fun kv => decide (kv.1 = k)) = none →
      (replayM s ops).find? (fun kv => decide (kv.1 = k)) = none := by
  induction ops with
  | nil => intro s k _ h; exact h
  | cons op ops ih =>
    intro s k hall h
    exact ih (applyM s op) k (fun o ho => hall o (by simp [ho]))
      (by rw [applyM_find_other (hall op (by simp))]; exact h)

theorem replayM_vals {K V : Type} [DecidableEq K] (ops : List (MOp K V)) :
    ∀ (s : MapState K V) (k : K) (kv : K × MVReg V),
      (replayM s ops).find? (fun kv => decide (kv.1 = k)) = some kv →
      ∀ e ∈ kv.2,
        (∃ kv0, s.find? (fun kv => decide (kv.1 = k)) = some kv0 ∧ e ∈ kv0.2)
        ∨ ∃ op ∈ ops, op.key = k ∧ op.value = e.1 := by
  induction ops with
  | nil => intro s k kv h e he; exact Or.inl ⟨kv, h, he⟩
  | cons op ops ih =>
    intro s k kv h e he
    rcases ih (applyM s op) k kv h e he with ⟨kv0, hkv0, he0⟩ | hop
    · rcases applyM_vals s op k kv0 hkv0 e he0 with h1 | ⟨hk, hv⟩
      · exact Or.inl h1
      · exact Or.inr ⟨op, by simp, hk, hv⟩
    · rcases hop with ⟨op', hop', hk, hv⟩
      exact Or.inr ⟨op', by simp [hop'], hk, hv⟩

/-- C6: for every key, `get` returns absent when the key was never written
(no applied operation carries it), and otherwise returns one of the
surviving values of the key's multi-value register — chosen as the first
value in register order, which is exactly the read policy — and never a
value that no writer produced: any returned value was carried by some
applied update operation for that key. -/
theorem map_get_correct {K V : Type} [DecidableEq K]
    (ops : List (MOp K V)) (k : K) :
    ((∀ op ∈ ops, op.key ≠ k) → getM (replayM [] ops) k = none)
    ∧ (∀ kv, (replayM ([] : MapState K V) ops).find?
          (fun kv => decide (kv.1 = k)) = some kv →
        getM (replayM [] ops) k = kv.2.head?.map (fun e => e.1))
    ∧ (∀ v, getM (replayM [] ops) k = some v →
        ∃ op ∈ ops, op.key = k ∧ op.value = v) := by
  refine ⟨?_, ?_, ?_⟩
  · intro hall
    have h := replayM_find_none ops [] k hall rfl
    simp [getM, h]
  · intro kv h
    simp [getM, h, regRead]
  · intro v hv
    unfold getM at hv
    rcases hf : (replayM ([] : MapState K V) ops).find?
        (fun kv => decide (kv.1 = k)) with _ | kv
    · rw [hf] at hv; cases hv
    · rw [hf] at hv
      simp only [Option.some_bind] at hv
      unfold regRead at hv
      rcases hh : kv.2.head? with _ | e
      · rw [hh] at hv; cases hv
      · rw [hh] at hv
        simp only [Option.map_some', Option.some.injEq] at hv
        have he : e ∈ kv.2 := by
          rcases kv2 : kv.2 with _ | ⟨a, rest⟩
          · rw [kv2] at hh; cases hh
          · rw [kv2] at hh
            simp only [List.head?_cons, Option.some.injEq] at hh
            rw [← hh]
            exact List.mem_cons_self a rest
        rcases replayM_vals ops [] k kv hf e he with ⟨kv0, hkv0, _⟩ | hop
        · cases hkv0
        · rcases hop with ⟨op, hop, hk, hval⟩
          refine ⟨op, hop, hk, ?_⟩
          rw [hval]
          exact hv

/-- Witness for C6: a single write of 42 to key 1; key 2 reads absent, key
1 reads 42 which was produced by that writer. -/
theorem map_get_correct_witness :
    getM (replayM ([] : MapState Nat Nat) [⟨1, [(0, 1)], 42⟩]) 2 = none
    ∧ ∃ op ∈ [(⟨1, [(0, 1)], 42⟩ : MOp Nat Nat)],
        op.key = 1 ∧ op.value = 42 :=
  ⟨(map_get_correct [⟨1, [(0, 1)], 42⟩] 2).1 (by decide),
   (map_get_correct [⟨1, [(0, 1)], 42⟩] 1).2.2 42 (by decide)⟩

end Synch
